import Mathlib

/-!
Verification of the news-reader search core (`search_parser.py`, `db.py`).

Strings are embedded as `List Char`.  Python's case mapping and whitespace
classification are modelled for the character ranges that can influence the
functions under study: ASCII and the Cyrillic block (the only cased letters
admitted by `TERM_CLEAN_RE`), plus Python's `str` whitespace set.  All
functions are total Lean translations of the source; Python code paths that
would raise (indexing an empty token) are unreachable, which is proved where
it matters.
-/

/-- Python `str` whitespace (the set matched by `\S` complement and `strip`). -/
def isPySpace (c : Char) : Bool :=
  let n := c.toNat
  (0x9 ≤ n && n ≤ 0xD) || (0x1C ≤ n && n ≤ 0x1F) || n = 0x20 || n = 0x85 ||
  n = 0xA0 || n = 0x1680 || (0x2000 ≤ n && n ≤ 0x200A) || n = 0x2028 ||
  n = 0x2029 || n = 0x202F || n = 0x205F || n = 0x3000

/-- The double-quote character. -/
def dq : Char := Char.ofNat 34

/-- The single-quote character. -/
def sqc : Char := Char.ofNat 39

/-- The backslash character. -/
def bs : Char := Char.ofNat 92

/-- The newline character. -/
def nl : Char := Char.ofNat 10

/-- Python `str.upper` restricted to the characters relevant here: ASCII and
Cyrillic.  Only the comparison of tokens against `"AND"`, `"OR"`, `"NOT"`
depends on it, and no character outside ASCII uppercases to a plain ASCII
letter under full Unicode rules. -/
def pyUpper (c : Char) : Char :=
  let n := c.toNat
  if 0x61 ≤ n && n ≤ 0x7A then Char.ofNat (n - 0x20)
  else if 0x430 ≤ n && n ≤ 0x44F then Char.ofNat (n - 0x20)
  else if n = 0x451 then Char.ofNat 0x401
  else c

/-- Python `str.lower` restricted to ASCII and Cyrillic: the only cased
characters that survive `TERM_CLEAN_RE`, which is the sole place `lower`
is applied. -/
def pyLower (c : Char) : Char :=
  let n := c.toNat
  if 0x41 ≤ n && n ≤ 0x5A then Char.ofNat (n + 0x20)
  else if 0x410 ≤ n && n ≤ 0x42F then Char.ofNat (n + 0x20)
  else if n = 0x401 then Char.ofNat 0x451
  else c

/-- SQLite's `lower()` SQL function: ASCII-only lowercasing. -/
def sqlLower (c : Char) : Char :=
  let n := c.toNat
  if 0x41 ≤ n && n ≤ 0x5A then Char.ofNat (n + 0x20) else c

/-- Python `str.strip` on both ends. -/
def pyStrip (l : List Char) : List Char :=
  ((l.dropWhile isPySpace).reverse.dropWhile isPySpace).reverse

/-- Characters kept by `TERM_CLEAN_RE = r'[^0-9A-Za-zА-Яа-яЁё_\\-]+'`:
digits, ASCII letters, Cyrillic А-я (0x410-0x44F), Ё (0x401), ё (0x451),
underscore, backslash (the `\\` in the raw-string class is an escaped literal
backslash) and hyphen. -/
def allowedChar (c : Char) : Bool :=
  let n := c.toNat
  (0x30 ≤ n && n ≤ 0x39) || (0x41 ≤ n && n ≤ 0x5A) || (0x61 ≤ n && n ≤ 0x7A) ||
  (0x410 ≤ n && n ≤ 0x44F) || n = 0x401 || n = 0x451 ||
  n = 0x5F || n = 0x5C || n = 0x2D

/-- The loop of `TERM_CLEAN_RE.sub(' ', term)`: the Boolean records whether
the scan is inside a run of disallowed characters (which has already emitted
its single replacement space). -/
def cleanRunsGo : List Char → Bool → List Char
  | [], _ => []
  | c :: rest, inRun =>
    if allowedChar c then c :: cleanRunsGo rest false
    else if inRun then cleanRunsGo rest true
    else ' ' :: cleanRunsGo rest true

/-- The substitution `TERM_CLEAN_RE.sub(' ', term)`: each maximal run of disallowed characters
becomes a single space. -/
def cleanRuns (l : List Char) : List Char := cleanRunsGo l false

/-- Function `sanitize_term` from `search_parser.py`: strip, collapse disallowed runs
to single spaces, strip again, lowercase. -/
def sanitize_term (raw : List Char) : List Char :=
  (pyStrip (cleanRuns (pyStrip raw))).map pyLower

/-- AST nodes of `search_parser.py` (`Term`, `NotNode`, `AndNode`, `OrNode`). -/
inductive Node where
  | Term (value : List Char) (phrase : Bool)
  | NotNode (node : Node)
  | AndNode (nodes : List Node)
  | OrNode (nodes : List Node)

/-- Whitespace splitting (`\S+` findall) over quote-free text, used to
re-scan the characters of a quote that never closes.  The accumulator holds
the current token reversed. -/
def splitSpacesGo : List Char → List Char → List (List Char)
  | [], acc => if acc.isEmpty then [] else [acc.reverse]
  | c :: rest, acc =>
    if isPySpace c then
      if acc.isEmpty then splitSpacesGo rest []
      else acc.reverse :: splitSpacesGo rest []
    else splitSpacesGo rest (c :: acc)

/-- Scanner state for `TOKEN_SPLIT_RE.findall` (the regex `(".*?"|\S+)`):
between matches, inside a `\S+` run, or inside a candidate `".*?"` match
(holding the characters after the opening quote, reversed). -/
inductive TokState where
  | out
  | bare (acc : List Char)
  | quoted (acc : List Char)

/-- One left-to-right pass of `TOKEN_SPLIT_RE.findall`.  The alternative
`".*?"` is tried first at each match position, so a `"` at a match position
opens a quote candidate; it matches up to the first closing `"` with no
newline in between (`.` does not match a newline).  If no closing quote
arrives before a newline or the end of input, the regex engine falls back to
`\S+` runs over the same characters, which is `splitSpacesGo` (the candidate
region cannot contain another `"`).  Inside a `\S+` run a `"` is just an
ordinary non-space character. -/
def tokenizeGo : List Char → TokState → List (List Char)
  | [], TokState.out => []
  | [], TokState.bare acc => [acc.reverse]
  | [], TokState.quoted acc => splitSpacesGo (dq :: acc.reverse) []
  | c :: rest, TokState.out =>
    if c = dq then tokenizeGo rest (TokState.quoted [])
    else if isPySpace c then tokenizeGo rest TokState.out
    else tokenizeGo rest (TokState.bare [c])
  | c :: rest, TokState.bare acc =>
    if isPySpace c then acc.reverse :: tokenizeGo rest TokState.out
    else tokenizeGo rest (TokState.bare (c :: acc))
  | c :: rest, TokState.quoted acc =>
    if c = dq then (dq :: (acc.reverse ++ [dq])) :: tokenizeGo rest TokState.out
    else if c = nl then
      splitSpacesGo (dq :: acc.reverse) [] ++ tokenizeGo rest TokState.out
    else tokenizeGo rest (TokState.quoted (c :: acc))

/-- Function `tokenize` from `search_parser.py`: regex findall, then drop tokens that
strip to the empty string. -/
def tokenize (raw : List Char) : List (List Char) :=
  (tokenizeGo raw TokState.out).filter (fun t => !(pyStrip t).isEmpty)

/-- The token `"AND"`. -/
def ANDtok : List Char := ['A', 'N', 'D']

/-- The token `"OR"`. -/
def ORtok : List Char := ['O', 'R']

/-- The token `"NOT"`. -/
def NOTtok : List Char := ['N', 'O', 'T']

/-- The check `tok.startswith('"') and tok.endswith('"') and len(tok) >= 2`. -/
def isPhraseTok (tok : List Char) : Bool :=
  decide (tok.head? = some dq) && decide (tok.getLast? = some dq) &&
  decide (2 ≤ tok.length)

/-- The prefix-expansion loop body of `parse_user_query`: phrase tokens pass
through; a leading `+`/`-`/`|` with a non-empty remainder becomes an explicit
operator token followed by the remainder; a bare prefix character is dropped.
The empty-token case is unreachable (`tokenize` never yields an empty token,
see `tokenize_tokens_nonempty`); Python would raise on `tok[0]` there. -/
def expandTok (tok : List Char) : List (List Char) :=
  if isPhraseTok tok then [tok]
  else
    match tok with
    | [] => []
    | pref :: body =>
      if (pref = '+' || pref = '-' || pref = '|') && body.isEmpty then []
      else if pref = '+' then [ANDtok, body]
      else if pref = '-' then [NOTtok, body]
      else if pref = '|' then [ORtok, body]
      else [pref :: body]

/-- Uppercase a token, Python `tok.upper()`. -/
def pyUpperL (tok : List Char) : List Char := tok.map pyUpper

/-- Membership of `tok.upper()` in `OPERATORS = {"AND", "OR", "NOT"}`. -/
def isOpTok (tok : List Char) : Bool :=
  pyUpperL tok = ANDtok || pyUpperL tok = ORtok || pyUpperL tok = NOTtok

/-- The implicit-AND insertion loop of `parse_user_query`: an `"AND"` token is
inserted between two consecutive term tokens.  The Boolean argument is the
loop's `prev_was_term` state. -/
def insertAndsGo : List (List Char) → Bool → List (List Char)
  | [], _ => []
  | tok :: rest, prevTerm =>
    if !isOpTok tok && prevTerm then
      ANDtok :: tok :: insertAndsGo rest true
    else
      tok :: insertAndsGo rest (!isOpTok tok)

/-- The operator-collapsing loop of `parse_user_query`: operator tokens are
emitted uppercased, and an operator directly following another operator is
dropped (its `prev_op` state stays true).  The Boolean argument is `prev_op`. -/
def collapseGo : List (List Char) → Bool → List (List Char)
  | [], _ => []
  | tok :: rest, prevOp =>
    if isOpTok tok then
      if prevOp then collapseGo rest true
      else pyUpperL tok :: collapseGo rest true
    else tok :: collapseGo rest false

/-- Function `build_term` from `parse_user_query`: phrase tokens lose their quotes and
are sanitized with `phrase=True`; other tokens are sanitized with
`phrase=False`.  (In the source, `Term(cleaned, p) if cleaned else
Term("", p)` is the identity split: both branches build `Term(cleaned, p)`.) -/
def build_term (tok : List Char) : Node :=
  if isPhraseTok tok then
    Node.Term (sanitize_term ((tok.drop 1).dropLast)) true
  else
    Node.Term (sanitize_term tok) false

/-- Items of the mixed node/operator-marker lists that flow between
`consume_not`, `consume_and` and `consume_or`.  The source keeps the literal
strings `"AND"`/`"OR"` in these lists; after `consume_not` those are the only
two strings that can occur (`"NOT"` is always consumed). -/
inductive NItem where
  | nd (n : Node)
  | andTok
  | orTok

/-- Function `consume_not` from `parse_user_query`: `NOT` consumes exactly the next
token into a negated term (a trailing `NOT` is dropped); `AND`/`OR` pass
through as markers; anything else becomes a `Term`. -/
def consume_not : List (List Char) → List NItem
  | [] => []
  | tok :: rest =>
    if tok = NOTtok then
      match rest with
      | t :: rest2 => NItem.nd (Node.NotNode (build_term t)) :: consume_not rest2
      | [] => []
    else if tok = ANDtok then NItem.andTok :: consume_not rest
    else if tok = ORtok then NItem.orTok :: consume_not rest
    else NItem.nd (build_term tok) :: consume_not rest

/-- Does a node fail the filter `not isinstance(c, Term) or c.value`
(that is, is it a `Term` with empty value)? -/
def isEmptyTerm : Node → Bool
  | Node.Term v _ => v.isEmpty
  | _ => false

/-- The `flush` closure of `consume_and`: an empty group emits nothing, a
singleton is emitted as-is, a larger group drops empty `Term`s and is wrapped
in `AndNode` (or degrades to one empty placeholder `Term` if all were empty). -/
def andFlush (current : List Node) : List NItem :=
  match current with
  | [] => []
  | [x] => [NItem.nd x]
  | _ =>
    match current.filter (fun c => !isEmptyTerm c) with
    | [] => [NItem.nd (Node.Term [] false)]
    | ne => [NItem.nd (Node.AndNode ne)]

/-- The main loop of `consume_and` with its `current` accumulator: `AND`
markers are pure separators, `OR` markers flush the group and are forwarded. -/
def consumeAndGo : List NItem → List Node → List NItem
  | [], current => andFlush current
  | NItem.andTok :: rest, current => consumeAndGo rest current
  | NItem.orTok :: rest, current =>
    andFlush current ++ NItem.orTok :: consumeAndGo rest []
  | NItem.nd n :: rest, current => consumeAndGo rest (current ++ [n])

/-- Function `consume_and` from `parse_user_query`. -/
def consume_and (seq : List NItem) : List NItem := consumeAndGo seq []

/-- The `flush` closure of `consume_or`: an empty group becomes a placeholder
empty `Term`, a singleton stays, a larger group becomes an `AndNode`. -/
def orFlush (current : List Node) : Node :=
  match current with
  | [] => Node.Term [] false
  | [x] => x
  | xs => Node.AndNode xs

/-- The grouping loop of `consume_or`: split on `OR` markers.  An `andTok`
item is dropped; that case is unreachable, because `consume_and` never emits
one (`consume_and_no_andTok`), while the source would append the raw string
to the group. -/
def orGroupsGo : List NItem → List Node → List Node
  | [], current => [orFlush current]
  | NItem.orTok :: rest, current => orFlush current :: orGroupsGo rest []
  | NItem.andTok :: rest, current => orGroupsGo rest current
  | NItem.nd n :: rest, current => orGroupsGo rest (current ++ [n])

/-- Function `consume_or` from `parse_user_query`: a single group is the AST itself,
several groups are wrapped in `OrNode`.  (`orGroupsGo` always returns at
least one group, so the `[]` arm is unreachable.) -/
def consume_or (seq : List NItem) : Node :=
  match orGroupsGo seq [] with
  | [g] => g
  | gs => Node.OrNode gs

mutual
/-- Function `prune` from `parse_user_query`: drop empty `Term`s, drop a `NotNode`
whose child is dropped, keep the surviving children of `AndNode`/`OrNode`
(dropping the node when none survive, collapsing it to the child when exactly
one survives). -/
def prune : Node → Option Node
  | Node.Term v p => if v.isEmpty then none else some (Node.Term v p)
  | Node.NotNode n =>
    match prune n with
    | some inner => some (Node.NotNode inner)
    | none => none
  | Node.AndNode ns =>
    match pruneList ns with
    | [] => none
    | [x] => some x
    | xs => some (Node.AndNode xs)
  | Node.OrNode ns =>
    match pruneList ns with
    | [] => none
    | [x] => some x
    | xs => some (Node.OrNode xs)

/-- The list comprehension `[p for n in node.nodes if (p := prune(n))]`. -/
def pruneList : List Node → List Node
  | [] => []
  | n :: rest =>
    match prune n with
    | some p => p :: pruneList rest
    | none => pruneList rest
end

/-- Function `parse_user_query` from `search_parser.py`: the full pipeline from a raw
string to an optional pruned AST. -/
def parse_user_query (raw : List Char) : Option Node :=
  let raw1 := pyStrip raw
  if raw1.isEmpty then none
  else
    let tokens := tokenize raw1
    let expanded := (tokens.map expandTok).flatten
    let normalized := insertAndsGo expanded false
    let cleaned := collapseGo normalized false
    let notProcessed := consume_not cleaned
    let andProcessed := consume_and notProcessed
    let ast := consume_or andProcessed
    prune ast

/-- Python `sep.join(parts)`. -/
def joinWith (sep : List Char) : List (List Char) → List Char
  | [] => []
  | [x] => x
  | x :: rest => x ++ sep ++ joinWith sep rest

mutual
/-- Function `build_fts_query` from `search_parser.py`: phrases are wrapped in double
quotes, `NOT` children are parenthesized, `AndNode` children are joined by a
space, `OrNode` children by `" OR "`. -/
def build_fts_query : Node → List Char
  | Node.Term v p => if p then dq :: (v ++ [dq]) else v
  | Node.NotNode n => "NOT (".toList ++ build_fts_query n ++ [')']
  | Node.AndNode ns => joinWith [' '] (ftsRenderList ns)
  | Node.OrNode ns => joinWith " OR ".toList (ftsRenderList ns)

/-- Renders each child for `build_fts_query`. -/
def ftsRenderList : List Node → List (List Char)
  | [] => []
  | n :: rest => build_fts_query n :: ftsRenderList rest
end

/-- Python `s.replace(t, "\\" + t)` for a single-character needle `t`. -/
def replEsc (t : Char) (s : List Char) : List Char :=
  (s.map (fun c => if c = t then [bs, c] else [c])).flatten

/-- The `esc` closure of `build_like_sql`:
`s.replace("%", "\\%").replace("_", "\\_")`. -/
def esc (s : List Char) : List Char := replEsc '_' (replEsc '%' s)

/-- The LIKE pattern `f"%{esc(value)}%"` built by `term_clause`. -/
def likePat (v : List Char) : List Char := '%' :: esc v ++ ['%']

/-- The SQL text of `term_clause`:
`(lower(<title>) LIKE ? ESCAPE '\' OR lower(<summary>) LIKE ? ESCAPE '\')`. -/
def termClauseSql (titleCol summaryCol : List Char) : List Char :=
  "(lower(".toList ++ titleCol ++ ") LIKE ? ESCAPE ".toList ++
  [sqc, bs, sqc] ++ " OR lower(".toList ++ summaryCol ++
  ") LIKE ? ESCAPE ".toList ++ [sqc, bs, sqc, ')']

/-- The `term_clause` closure of `build_like_sql`.  The source distinguishes
`t.phrase` but both branches build the identical clause and pattern pair. -/
def term_clause (titleCol summaryCol : List Char) (v : List Char)
    (phrase : Bool) : List Char × List (List Char) :=
  if phrase then (termClauseSql titleCol summaryCol, [likePat v, likePat v])
  else (termClauseSql titleCol summaryCol, [likePat v, likePat v])

mutual
/-- Function `build_like_sql` from `search_parser.py`: renders a parameterized SQL
boolean expression; parameters are concatenated in child order. -/
def build_like_sql (n : Node) (titleCol summaryCol : List Char) :
    List Char × List (List Char) :=
  match n with
  | Node.Term v p => term_clause titleCol summaryCol v p
  | Node.NotNode m =>
    let r := build_like_sql m titleCol summaryCol
    ("(NOT ".toList ++ r.1 ++ [')'], r.2)
  | Node.AndNode ns =>
    let rs := likeRenderList ns titleCol summaryCol
    ('(' :: joinWith " AND ".toList (rs.map Prod.fst) ++ [')'],
      (rs.map Prod.snd).flatten)
  | Node.OrNode ns =>
    let rs := likeRenderList ns titleCol summaryCol
    ('(' :: joinWith " OR ".toList (rs.map Prod.fst) ++ [')'],
      (rs.map Prod.snd).flatten)

/-- Renders each child for `build_like_sql`. -/
def likeRenderList (ns : List Node) (titleCol summaryCol : List Char) :
    List (List Char × List (List Char)) :=
  match ns with
  | [] => []
  | n :: rest =>
    build_like_sql n titleCol summaryCol :: likeRenderList rest titleCol summaryCol
end

/-- A positional SQL parameter: the source binds strings (LIKE patterns, the
FTS query) and integers (limit, offset). -/
inductive SqlParam where
  | s (v : List Char)
  | n (v : Int)

/-- One storage interaction performed by `Database.search`: opening the
SQLite connection, or executing one parameterized statement. -/
inductive StorageOp where
  | openConn
  | runQuery (sql : List Char) (params : List SqlParam)

/-- The storage backend as an oracle: what a count statement and a row
statement return.  `Database.search` is deterministic given this oracle. -/
structure StorageOracle (Row : Type) where
  resCount : List Char → List SqlParam → Nat
  resRows : List Char → List SqlParam → List Row

/-- Result of `Database.search`, instrumented with the ordered trace of
storage interactions the call performs. -/
structure SearchResult (Row : Type) where
  rows : List Row
  total : Nat
  ops : List StorageOp

/-- The count statement of the FTS branch of `Database.search`. -/
def ftsCountSql : List Char :=
  "SELECT COUNT(*) FROM news_fts WHERE news_fts MATCH ?".toList

/-- The page statement of the FTS branch of `Database.search`
(whitespace normalized from the Python triple-quoted literal). -/
def ftsPageSql : List Char :=
  ("SELECT n.source, n.title, n.link, n.published, n.summary, n.added_at " ++
   "FROM news_fts JOIN news n ON n.id = news_fts.rowid WHERE news_fts MATCH ? " ++
   "ORDER BY n.id DESC LIMIT ? OFFSET ?").toList

/-- The count statement of the LIKE branch of `Database.search`. -/
def likeCountSql (whereSql : List Char) : List Char :=
  "SELECT COUNT(*) FROM news WHERE ".toList ++ whereSql

/-- The page statement of the LIKE branch of `Database.search`
(whitespace normalized from the Python triple-quoted literal). -/
def likePageSql (whereSql : List Char) : List Char :=
  ("SELECT source, title, link, published, summary, added_at " ++
   "FROM news WHERE ").toList ++ whereSql ++
  " ORDER BY id DESC LIMIT ? OFFSET ?".toList

/-- Method `Database.search` from `db.py`, instrumented with its storage trace:
strip the query (`query or ""` only matters for a `None` argument); an empty
string or a parse without a node returns `([], 0)` before any storage
interaction; otherwise one connection is opened and a count statement plus a
page statement are executed against whichever backend is available. -/
def Database.search {Row : Type} (ftsAvailable : Bool) (o : StorageOracle Row)
    (query : List Char) (limit offset : Int) : SearchResult Row :=
  let raw := pyStrip query
  if raw.isEmpty then ⟨[], 0, []⟩
  else
    match parse_user_query raw with
    | none => ⟨[], 0, []⟩
    | some ast =>
      if ftsAvailable then
        let fts_q := build_fts_query ast
        let total := o.resCount ftsCountSql [SqlParam.s fts_q]
        let rows := o.resRows ftsPageSql
          [SqlParam.s fts_q, SqlParam.n limit, SqlParam.n offset]
        ⟨rows, total,
          [StorageOp.openConn,
           StorageOp.runQuery ftsCountSql [SqlParam.s fts_q],
           StorageOp.runQuery ftsPageSql
             [SqlParam.s fts_q, SqlParam.n limit, SqlParam.n offset]]⟩
      else
        let r := build_like_sql ast "title".toList "summary".toList
        let params := r.2.map SqlParam.s
        let total := o.resCount (likeCountSql r.1) params
        let rows := o.resRows (likePageSql r.1)
          (params ++ [SqlParam.n limit, SqlParam.n offset])
        ⟨rows, total,
          [StorageOp.openConn,
           StorageOp.runQuery (likeCountSql r.1) params,
           StorageOp.runQuery (likePageSql r.1)
             (params ++ [SqlParam.n limit, SqlParam.n offset])]⟩

/-- A stored document's searchable text, the two columns both backends
consult (`title`, `summary`). -/
structure Doc where
  title : List Char
  summary : List Char

/-- Word characters of the index backend's tokenizer (FTS5 `unicode61`):
letters and digits; modelled for the ASCII and Cyrillic ranges that
sanitized terms can contain. -/
def ftsWordChar (c : Char) : Bool :=
  let n := c.toNat
  (0x30 ≤ n && n ≤ 0x39) || (0x41 ≤ n && n ≤ 0x5A) || (0x61 ≤ n && n ≤ 0x7A) ||
  (0x410 ≤ n && n ≤ 0x44F) || n = 0x401 || n = 0x451

/-- The scanning loop of the modelled index tokenizer; the accumulator holds
the current word reversed. -/
def ftsTokensGo : List Char → List Char → List (List Char)
  | [], acc => if acc.isEmpty then [] else [(acc.reverse).map pyLower]
  | c :: rest, acc =>
    if ftsWordChar c then ftsTokensGo rest (c :: acc)
    else if acc.isEmpty then ftsTokensGo rest []
    else ((acc.reverse).map pyLower) :: ftsTokensGo rest []

/-- Modelled from the spec: the index backend (SQLite FTS5, external to the
repository) tokenizes stored text into maximal runs of word characters,
lowercased.  A bare query term matches a document iff it occurs among these
tokens. -/
def ftsTokens (l : List Char) : List (List Char) := ftsTokensGo l []

/-- Modelled from the spec: whether a single rendered term of the index query
matches a document (token containment in either column). -/
def ftsTermMatch (v : List Char) (d : Doc) : Bool :=
  (ftsTokens d.title).contains v || (ftsTokens d.summary).contains v

mutual
/-- Modelled from the spec: the document predicate denoted by executing the
index renderer's output for an AST (space-joined terms are conjunctive,
`OR` disjunctive, `NOT (...)` negates). -/
def ftsEval (n : Node) (d : Doc) : Bool :=
  match n with
  | Node.Term v _ => ftsTermMatch v d
  | Node.NotNode m => !ftsEval m d
  | Node.AndNode ns => ftsEvalList ns d
  | Node.OrNode ns => ftsEvalAny ns d

/-- Conjunction over children for `ftsEval`. -/
def ftsEvalList (ns : List Node) (d : Doc) : Bool :=
  match ns with
  | [] => true
  | n :: rest => ftsEval n d && ftsEvalList rest d

/-- Disjunction over children for `ftsEval`. -/
def ftsEvalAny (ns : List Node) (d : Doc) : Bool :=
  match ns with
  | [] => false
  | n :: rest => ftsEval n d || ftsEvalAny rest d
end

/-- SQLite `LIKE ... ESCAPE '\'` pattern interpretation: the escape character
makes the following character literal.  Applied to `esc` output this undoes
the escaping (and silently drops an unpaired trailing escape character). -/
def likeUnescape : List Char → List Char
  | [] => []
  | c :: rest =>
    if c = bs then
      match rest with
      | [] => []
      | c2 :: r2 => c2 :: likeUnescape r2
    else c :: likeUnescape rest

/-- Substring containment of `w` in `s`. -/
def containsSub (w : List Char) : List Char → Bool
  | [] => w.isEmpty
  | c :: rest => w.isPrefixOf (c :: rest) || containsSub w rest

/-- Modelled from the spec: whether one `term_clause` of the substring
renderer selects a document.  SQL `lower()` is ASCII-only and `LIKE` is
ASCII-case-insensitive, so both sides are compared through `sqlLower`; the
`%<esc(value)>%` pattern with `ESCAPE '\'` selects exactly the documents
containing the unescaped value as a substring. -/
def likeTermMatch (v : List Char) (d : Doc) : Bool :=
  let w := (likeUnescape (esc v)).map sqlLower
  containsSub w (d.title.map sqlLower) || containsSub w (d.summary.map sqlLower)

mutual
/-- Modelled from the spec: the document predicate denoted by executing the
substring renderer's output for an AST (`AND`/`OR`/`NOT` SQL connectives
over `term_clause` atoms). -/
def likeEval (n : Node) (d : Doc) : Bool :=
  match n with
  | Node.Term v _ => likeTermMatch v d
  | Node.NotNode m => !likeEval m d
  | Node.AndNode ns => likeEvalList ns d
  | Node.OrNode ns => likeEvalAny ns d

/-- Conjunction over children for `likeEval`. -/
def likeEvalList (ns : List Node) (d : Doc) : Bool :=
  match ns with
  | [] => true
  | n :: rest => likeEval n d && likeEvalList rest d

/-- Disjunction over children for `likeEval`. -/
def likeEvalAny (ns : List Node) (d : Doc) : Bool :=
  match ns with
  | [] => false
  | n :: rest => likeEval n d || likeEvalAny rest d
end

mutual
/-- The well-formedness invariant claimed for every AST `parse_user_query`
returns: every `Term` value is non-empty, every `AndNode`/`OrNode` has at
least two children (each well-formed), and every `NotNode` wraps one
well-formed child (that a `NotNode` has exactly one child is structural). -/
def wellFormed : Node → Bool
  | Node.Term v _ => !v.isEmpty
  | Node.NotNode n => wellFormed n
  | Node.AndNode ns => decide (2 ≤ ns.length) && wellFormedList ns
  | Node.OrNode ns => decide (2 ≤ ns.length) && wellFormedList ns

/-- All nodes of a list are well-formed. -/
def wellFormedList : List Node → Bool
  | [] => true
  | n :: rest => wellFormed n && wellFormedList rest
end

/-- Is the node a `Term` leaf? -/
def isTermNode : Node → Bool
  | Node.Term _ _ => true
  | _ => false

/-- Flat-leaf shape: a `Term`, or a `NotNode` whose child is a `Term`. -/
def flatLeaf : Node → Bool
  | Node.Term _ _ => true
  | Node.NotNode (Node.Term _ _) => true
  | _ => false

/-- Flat-group shape: an `AndNode` all of whose children are flat leaves,
or a flat leaf itself. -/
def flatAnd : Node → Bool
  | Node.AndNode ns => ns.all flatLeaf
  | n => flatLeaf n

/-- Flat-tree shape: an `OrNode` all of whose children are flat groups, or a
flat group itself (so an `OrNode` can only occur at the root, an `AndNode`
only has leaf-level children, and a `NotNode` only wraps a `Term`). -/
def flatRoot : Node → Bool
  | Node.OrNode ns => ns.all flatAnd
  | n => flatAnd n

mutual
/-- The `Term` values of an AST, in left-to-right leaf order. -/
def termValues : Node → List (List Char)
  | Node.Term v _ => [v]
  | Node.NotNode n => termValues n
  | Node.AndNode ns => termValuesList ns
  | Node.OrNode ns => termValuesList ns

/-- Concatenated `Term` values of a node list. -/
def termValuesList : List Node → List (List Char)
  | [] => []
  | n :: rest => termValues n ++ termValuesList rest
end

mutual
/-- The number of phrase `Term` leaves of an AST. -/
def phraseCount : Node → Nat
  | Node.Term _ p => if p then 1 else 0
  | Node.NotNode n => phraseCount n
  | Node.AndNode ns => phraseCountList ns
  | Node.OrNode ns => phraseCountList ns

/-- Total phrase-leaf count of a node list. -/
def phraseCountList : List Node → Nat
  | [] => 0
  | n :: rest => phraseCount n + phraseCountList rest
end

mutual
/-- Does every `Term` value of the AST satisfy `P`? -/
def valuesOk (P : List Char → Bool) : Node → Bool
  | Node.Term v _ => P v
  | Node.NotNode n => valuesOk P n
  | Node.AndNode ns => valuesOkList P ns
  | Node.OrNode ns => valuesOkList P ns

/-- Predicate `valuesOk` over a node list. -/
def valuesOkList (P : List Char → Bool) : List Node → Bool
  | [] => true
  | n :: rest => valuesOk P n && valuesOkList P rest
end

mutual
/-- The AST class of the renderer-agreement claim: only non-phrase `Term`
leaves combined with `AndNode`/`OrNode`, no `NotNode`. -/
def plainAndOr : Node → Bool
  | Node.Term _ p => !p
  | Node.NotNode _ => false
  | Node.AndNode ns => plainAndOrList ns
  | Node.OrNode ns => plainAndOrList ns

/-- Predicate `plainAndOr` over a node list. -/
def plainAndOrList : List Node → Bool
  | [] => true
  | n :: rest => plainAndOr n && plainAndOrList rest
end

mutual
theorem prune_wellFormed : ∀ (n m : Node), prune n = some m → wellFormed m = true := by
  intro n m h
  match n with
  | Node.Term v p =>
    unfold prune at h
    by_cases hv : v.isEmpty <;> simp [hv] at h
    subst h
    simp [wellFormed, hv]
  | Node.NotNode n0 =>
    unfold prune at h
    match hp : prune n0 with
    | some inner =>
      rw [hp] at h
      simp at h
      subst h
      simpa [wellFormed] using prune_wellFormed n0 inner hp
    | none => rw [hp] at h; simp at h
  | Node.AndNode ns =>
    unfold prune at h
    match hl : pruneList ns with
    | [] => rw [hl] at h; simp at h
    | [x] =>
      rw [hl] at h
      simp at h
      subst h
      have := pruneList_wellFormed ns
      rw [hl] at this
      simpa [wellFormedList] using this
    | x :: y :: xs =>
      rw [hl] at h
      simp at h
      subst h
      have := pruneList_wellFormed ns
      rw [hl] at this
      simp [wellFormed, this]
  | Node.OrNode ns =>
    unfold prune at h
    match hl : pruneList ns with
    | [] => rw [hl] at h; simp at h
    | [x] =>
      rw [hl] at h
      simp at h
      subst h
      have := pruneList_wellFormed ns
      rw [hl] at this
      simpa [wellFormedList] using this
    | x :: y :: xs =>
      rw [hl] at h
      simp at h
      subst h
      have := pruneList_wellFormed ns
      rw [hl] at this
      simp [wellFormed, this]

theorem pruneList_wellFormed : ∀ (ns : List Node), wellFormedList (pruneList ns) = true := by
  intro ns
  match ns with
  | [] => simp [pruneList, wellFormedList]
  | n :: rest =>
    unfold pruneList
    match hp : prune n with
    | some p => simp [wellFormedList, prune_wellFormed n p hp, pruneList_wellFormed rest]
    | none => exact pruneList_wellFormed rest
end

/-- Claim C1: `parse_user_query` is total over all input strings (the
embedding is a total function, and the one Python expression that could
raise, `tok[0]` in the prefix expansion, is guarded by
`tokenize_tokens_nonempty` below), and whenever it returns an AST that AST
is well-formed: every `Term` value non-empty, every `AndNode`/`OrNode` with
at least two children, every `NotNode` with exactly one child (structural in
the `Node` type). -/
theorem parse_user_query_wellFormed (raw : List Char) (ast : Node)
    (h : parse_user_query raw = some ast) : wellFormed ast = true := by
  unfold parse_user_query at h
  by_cases he : (pyStrip raw).isEmpty
  · simp [he] at h
  · simp [he] at h
    exact prune_wellFormed _ _ h

/-- Witness for C1 at the concrete input `"cat dog"`. -/
theorem parse_user_query_wellFormed_witness :
    wellFormed (Node.AndNode
      [Node.Term ['c', 'a', 't'] false, Node.Term ['d', 'o', 'g'] false]) = true :=
  parse_user_query_wellFormed "cat dog".toList _ (by rfl)

/-- The character set claimed for sanitized term values (C5), following the
claim's wording: lowercase ASCII letters, digits, Cyrillic letters,
underscores, hyphens and space — written only for comparison with what
`sanitize_term` actually produces. -/
def specTermCharOk (c : Char) : Bool :=
  let n := c.toNat
  (0x30 ≤ n && n ≤ 0x39) || (0x61 ≤ n && n ≤ 0x7A) ||
  (0x400 ≤ n && n ≤ 0x4FF) || n = 0x5F || n = 0x2D || n = 0x20

/-- Claim C5 fails on the code: `TERM_CLEAN_RE` is written
`r'[^0-9A-Za-zА-Яа-яЁё_\\-]+'`, and inside a raw-string character class
`\\` is an escaped literal backslash, so a backslash survives sanitization
(and reaches `Term` values of parsed ASTs), though the claimed character set
excludes it.  The intended pattern was evidently `\-` (escaped hyphen): a
backslash in a term value breaks the `ESCAPE '\'` discipline of the
substring renderer that the spec's idempotent-escaping property relies on. -/
theorem sanitize_term_backslash :
    sanitize_term ['a', bs, 'b'] = ['a', bs, 'b'] ∧
    parse_user_query ['a', bs, 'b'] = some (Node.Term ['a', bs, 'b'] false) ∧
    specTermCharOk bs = false :=
  ⟨rfl, rfl, by decide⟩

/-- Is an item an empty placeholder `Term`? -/
def isEmptyTermItem : NItem → Bool
  | NItem.nd n => isEmptyTerm n
  | _ => false

/-- Counterexample to claim C6: on the input sequence `[OR, Term "cat"]` the
`OR` marker is encountered while zero items are accumulated, yet the
AND-grouping output contains no placeholder empty `Term` at all — `flush`
returns without emitting anything for an empty group. -/
theorem consume_and_empty_group_counterexample :
    consume_and [NItem.orTok, NItem.nd (Node.Term ['c', 'a', 't'] false)] =
      [NItem.orTok, NItem.nd (Node.Term ['c', 'a', 't'] false)] ∧
    (consume_and [NItem.orTok, NItem.nd (Node.Term ['c', 'a', 't'] false)]).all
      (fun x => !isEmptyTermItem x) = true :=
  ⟨rfl, rfl⟩

/-- Amended C6: when an `OR` marker is encountered while zero items have been
accumulated, `consume_and` emits nothing before the marker (the `flush`
closure returns early on an empty group); the placeholder empty `Term` for
such an empty OR-delimited group is produced later, by the `consume_or`
grouping phase. -/
theorem consume_and_empty_group_amended :
    (∀ seq : List NItem,
      consumeAndGo (NItem.orTok :: seq) [] = NItem.orTok :: consumeAndGo seq []) ∧
    (∀ rest : List NItem,
      orGroupsGo (NItem.orTok :: rest) [] = Node.Term [] false :: orGroupsGo rest []) :=
  ⟨fun _ => rfl, fun _ => rfl⟩

/-- Claim C7: prefix shorthand is equivalent to explicit operators.  A
leading `+`/`-`/`|` on a non-empty bare word expands to the explicit
`AND`/`NOT`/`OR` operator token followed by the remainder, a bare prefix
character is dropped, and concretely `parse("-war")` is `Not(Term "war")`
while `parse("+cat")` and `parse("cat")` coincide. -/
theorem expandTok_prefix_equiv :
    (∀ (c : Char) (body : List Char), (c = '+' ∨ c = '-' ∨ c = '|') →
      body ≠ [] →
      expandTok (c :: body) =
        [if c = '+' then ANDtok else if c = '-' then NOTtok else ORtok, body]) ∧
    (∀ c : Char, (c = '+' ∨ c = '-' ∨ c = '|') → expandTok [c] = []) ∧
    parse_user_query "-war".toList =
      some (Node.NotNode (Node.Term ['w', 'a', 'r'] false)) ∧
    parse_user_query "+cat".toList = parse_user_query "cat".toList := by
  refine ⟨?_, ?_, by rfl, by rfl⟩
  · intro c body hc hb
    have hbe : body.isEmpty = false := by
      cases body with
      | nil => exact absurd rfl hb
      | cons a l => rfl
    rcases hc with h | h | h <;> subst h <;>
      simp [expandTok, isPhraseTok, hbe, dq]
  · intro c hc
    rcases hc with h | h | h <;> subst h <;> rfl

/-- Witness for C7 at the concrete token `"-war"` and the bare prefix `"-"`. -/
theorem expandTok_prefix_equiv_witness :
    expandTok ('-' :: ['w', 'a', 'r']) = [NOTtok, ['w', 'a', 'r']] ∧
    expandTok ['-'] = [] := by
  constructor
  · have h := expandTok_prefix_equiv.1 '-' ['w', 'a', 'r']
      (Or.inr (Or.inl rfl)) (by simp)
    simpa using h
  · exact expandTok_prefix_equiv.2.1 '-' (Or.inr (Or.inl rfl))

/-- Claim C8: adjacent term tokens default to conjunction.  Inserting the
explicit `AND` token between two adjacent non-operator tokens leaves the
implicit-AND normalization output unchanged, for any surrounding tokens and
any loop state; concretely `parse("cat dog")` and `parse("cat AND dog")`
produce identical ASTs. -/
theorem insertAnds_implicit_and :
    (∀ (t1 t2 : List Char), isOpTok t1 = false → isOpTok t2 = false →
      ∀ (xs ys : List (List Char)) (p : Bool),
        insertAndsGo (xs ++ t1 :: t2 :: ys) p =
        insertAndsGo (xs ++ t1 :: ANDtok :: t2 :: ys) p) ∧
    parse_user_query "cat dog".toList = parse_user_query "cat AND dog".toList := by
  refine ⟨?_, by rfl⟩
  intro t1 t2 h1 h2 xs
  have hA : isOpTok ANDtok = true := by decide
  induction xs with
  | nil =>
    intro ys p
    cases p <;> simp [insertAndsGo, h1, h2, hA]
  | cons x xs ih =>
    intro ys p
    by_cases hx : isOpTok x
    · simp [insertAndsGo, hx, ih]
    · cases p <;> simp [insertAndsGo, hx, ih]

/-- Witness for C8 at the concrete token streams of `"cat dog"` and
`"cat AND dog"`. -/
theorem insertAnds_implicit_and_witness :
    insertAndsGo [['c', 'a', 't'], ['d', 'o', 'g']] false =
      insertAndsGo [['c', 'a', 't'], ANDtok, ['d', 'o', 'g']] false :=
  insertAnds_implicit_and.1 ['c', 'a', 't'] ['d', 'o', 'g']
    (by decide) (by decide) [] [] false

/-- Claim C3: when parsing yields no node, `Database.search` returns the
empty page with total `0` and performs no storage interaction at all (no
connection, no statement); when parsing yields an AST, the call performs
exactly three storage interactions — opening the connection, one count
statement, one page statement — even if the query matches zero rows. -/
theorem Database.search_no_node {Row : Type} (fts : Bool) (o : StorageOracle Row)
    (q : List Char) (limit offset : Int) :
    (parse_user_query (pyStrip q) = none →
      Database.search fts o q limit offset = ⟨[], 0, []⟩) ∧
    (∀ ast, parse_user_query (pyStrip q) = some ast →
      (Database.search fts o q limit offset).ops.length = 3 ∧
      (Database.search fts o q limit offset).ops.head? = some StorageOp.openConn) := by
  by_cases hre : (pyStrip q).isEmpty
  · have hnil : pyStrip q = [] := by
      cases hq : pyStrip q with
      | nil => rfl
      | cons a l => rw [hq] at hre; simp at hre
    constructor
    · intro _
      simp [Database.search, hre]
    · intro ast hast
      rw [hnil] at hast
      simp [parse_user_query, pyStrip] at hast
  · constructor
    · intro hnone
      simp [Database.search, hre, hnone]
    · intro ast hast
      cases fts <;> simp [Database.search, hre, hast]

/-- Witness for C3: a whitespace-only query returns `([], 0)` with an empty
storage trace; the query `"cat"` (against an oracle reporting zero matches)
still performs its three storage interactions. -/
theorem Database.search_no_node_witness :
    Database.search true ⟨fun _ _ => 0, fun _ _ => ([] : List Unit)⟩
      "   ".toList 5 0 = ⟨[], 0, []⟩ ∧
    (Database.search true ⟨fun _ _ => 0, fun _ _ => ([] : List Unit)⟩
      "cat".toList 5 0).ops.length = 3 :=
  ⟨(Database.search_no_node true _ "   ".toList 5 0).1 (by rfl),
   ((Database.search_no_node true _ "cat".toList 5 0).2
     (Node.Term ['c', 'a', 't'] false) (by rfl)).1⟩

/-- Function `tokenize` never yields an empty token (so the `tok[0]` access in the
prefix-expansion loop of `parse_user_query` cannot raise): an empty token
would be removed by the `t.strip()` filter. -/
theorem tokenize_tokens_nonempty (raw : List Char) :
    ∀ t ∈ tokenize raw, t ≠ [] := by
  intro t ht hteq
  subst hteq
  unfold tokenize at ht
  rw [List.mem_filter] at ht
  simp [pyStrip] at ht

theorem replEsc_append (tc : Char) (a b : List Char) :
    replEsc tc (a ++ b) = replEsc tc a ++ replEsc tc b := by
  simp [replEsc]

theorem esc_cons (c : Char) (v : List Char) :
    esc (c :: v) =
      (if c = '%' then [bs, '%'] else if c = '_' then [bs, '_'] else [c]) ++
        esc v := by
  have hrep : ∀ (tc : Char) (l : List Char),
      replEsc tc (c :: l) = (if c = tc then [bs, c] else [c]) ++ replEsc tc l := by
    intro tc l
    simp [replEsc]
  have hb1 : ¬bs = '_' := by decide
  have hb2 : ¬bs = '%' := by decide
  by_cases h1 : c = '%'
  · subst h1
    simp [esc, hrep, replEsc_append, replEsc, hb1]
  · by_cases h2 : c = '_'
    · subst h2
      simp [esc, hrep, replEsc_append, replEsc, h1, hb1]
    · simp [esc, hrep, replEsc_append, replEsc, h1, h2]

/-- The loop of the escape-safety check: `prev` is the previous character
(initially one that is not the escape character). -/
def escSafeGo : Char → List Char → Bool
  | _, [] => true
  | prev, c :: rest =>
    if (c = '%' ∨ c = '_') ∧ ¬prev = bs then false else escSafeGo c rest

/-- Every `%` and `_` in the list is immediately preceded by a backslash
(the initial previous character `' '` is not a backslash, so a leading
wildcard character fails the check). -/
def escSafe (l : List Char) : Bool := escSafeGo ' ' l

theorem escSafeGo_esc (v : List Char) : ∀ prev, escSafeGo prev (esc v) = true := by
  induction v with
  | nil => intro prev; rfl
  | cons c v ih =>
    intro prev
    rw [esc_cons]
    by_cases h1 : c = '%'
    · subst h1
      simp [escSafeGo, bs, ih]
    · by_cases h2 : c = '_'
      · subst h2
        simp [escSafeGo, bs, h1, ih]
      · simp [escSafeGo, h1, h2, ih]

theorem count_joinWith (c : Char) (sep : List Char) (h : sep.count c = 0) :
    ∀ l : List (List Char),
      (joinWith sep l).count c = (l.map (fun x => x.count c)).sum := by
  intro l
  induction l with
  | nil => simp [joinWith]
  | cons x rest ih =>
    cases rest with
    | nil => simp [joinWith]
    | cons y ys =>
      simp only [joinWith, List.count_append, List.map_cons, List.sum_cons]
      rw [ih]
      simp [h]

theorem termClauseSql_count (t s : List Char) (ht : t.count '?' = 0)
    (hs : s.count '?' = 0) : (termClauseSql t s).count '?' = 2 := by
  simp only [termClauseSql, List.count_append]
  rw [ht, hs]
  decide

mutual
theorem build_like_sql_count (n : Node) (t s : List Char)
    (ht : t.count '?' = 0) (hs : s.count '?' = 0) :
    (build_like_sql n t s).1.count '?' = (build_like_sql n t s).2.length ∧
    (build_like_sql n t s).2 =
      ((termValues n).map (fun v => [likePat v, likePat v])).flatten := by
  match n with
  | Node.Term v p =>
    cases p <;>
      simp [build_like_sql, term_clause, termValues,
        termClauseSql_count t s ht hs]
  | Node.NotNode m =>
    have ih := build_like_sql_count m t s ht hs
    refine ⟨?_, by simpa [build_like_sql, termValues] using ih.2⟩
    simp only [build_like_sql, List.count_append]
    rw [ih.1]
    simp [termValues]
  | Node.AndNode ns =>
    have ih := likeRenderList_count ns t s ht hs
    have hsep : (" AND ".toList).count '?' = 0 := by decide
    refine ⟨?_, by simpa [build_like_sql, termValues] using ih.2⟩
    simp only [build_like_sql, List.count_cons, List.count_append,
      count_joinWith '?' _ hsep]
    rw [ih.1]
    simp
  | Node.OrNode ns =>
    have ih := likeRenderList_count ns t s ht hs
    have hsep : (" OR ".toList).count '?' = 0 := by decide
    refine ⟨?_, by simpa [build_like_sql, termValues] using ih.2⟩
    simp only [build_like_sql, List.count_cons, List.count_append,
      count_joinWith '?' _ hsep]
    rw [ih.1]
    simp

theorem likeRenderList_count (ns : List Node) (t s : List Char)
    (ht : t.count '?' = 0) (hs : s.count '?' = 0) :
    (((likeRenderList ns t s).map Prod.fst).map (fun x => x.count '?')).sum =
      (((likeRenderList ns t s).map Prod.snd).flatten).length ∧
    ((likeRenderList ns t s).map Prod.snd).flatten =
      ((termValuesList ns).map (fun v => [likePat v, likePat v])).flatten := by
  match ns with
  | [] => simp [likeRenderList, termValuesList]
  | n :: rest =>
    have ih1 := build_like_sql_count n t s ht hs
    have ih2 := likeRenderList_count rest t s ht hs
    constructor
    · simp only [likeRenderList, List.map_cons, List.sum_cons,
        List.flatten_cons, List.length_append]
      rw [ih1.1, ih2.1]
    · simp only [likeRenderList, List.map_cons, List.flatten_cons,
        termValuesList, List.map_append, List.flatten_append]
      rw [ih1.2, ih2.2]
end

/-- Claim C4: for every AST, `build_like_sql` (at the default columns used by
`Database.search`) emits exactly as many `?` placeholders as parameters; the
parameter list is exactly the left-to-right `Term` values, each contributing
two adjacent identical `%<esc(value)>%` patterns — so parameters line up with
placeholders positionally — and `esc` puts a backslash immediately before
every `%` and `_`. -/
theorem build_like_sql_params (ast : Node) :
    ((build_like_sql ast "title".toList "summary".toList).1.count '?' =
      (build_like_sql ast "title".toList "summary".toList).2.length) ∧
    ((build_like_sql ast "title".toList "summary".toList).2 =
      ((termValues ast).map (fun v => [likePat v, likePat v])).flatten) ∧
    (∀ v : List Char, escSafe (esc v) = true) := by
  have h := build_like_sql_count ast "title".toList "summary".toList
    (by decide) (by decide)
  exact ⟨h.1, h.2, fun v => escSafeGo_esc v ' '⟩

theorem toNat_ofNat_valid (n : Nat) (h : n < 0xD800) :
    (Char.ofNat n).toNat = n := by
  unfold Char.ofNat
  rw [dif_pos (Or.inl h)]
  rfl

theorem cleanRunsGo_mem {c : Char} :
    ∀ (l : List Char) (b : Bool), c ∈ cleanRunsGo l b →
      allowedChar c = true ∨ c = ' ' := by
  intro l
  induction l with
  | nil => intro b h; simp [cleanRunsGo] at h
  | cons x rest ih =>
    intro b h
    unfold cleanRunsGo at h
    by_cases hx : allowedChar x
    · simp [hx] at h
      rcases h with h | h
      · subst h; exact Or.inl hx
      · exact ih false h
    · by_cases hb : b
      · simp [hx, hb] at h
        exact ih true h
      · simp [hx, hb] at h
        rcases h with h | h
        · subst h; exact Or.inr rfl
        · exact ih true h

theorem dropWhile_mem {c : Char} {p : Char → Bool} :
    ∀ {l : List Char}, c ∈ l.dropWhile p → c ∈ l := by
  intro l
  induction l with
  | nil => intro h; simpa using h
  | cons x rest ih =>
    intro h
    by_cases hx : p x
    · rw [List.dropWhile_cons_of_pos hx] at h
      exact List.mem_cons_of_mem x (ih h)
    · rwa [List.dropWhile_cons_of_neg hx] at h

theorem pyStrip_mem {c : Char} {l : List Char} (h : c ∈ pyStrip l) : c ∈ l := by
  unfold pyStrip at h
  rw [List.mem_reverse] at h
  have h2 := dropWhile_mem h
  rw [List.mem_reverse] at h2
  exact dropWhile_mem h2

theorem pyLower_ne_dq (c0 : Char) (h : allowedChar c0 = true ∨ c0 = ' ') :
    ¬pyLower c0 = dq := by
  intro heq
  have hdq : dq.toNat = 34 := by decide
  simp only [pyLower] at heq
  split_ifs at heq with h1 h2 h3
  · simp only [Bool.and_eq_true, decide_eq_true_eq] at h1
    have := congrArg Char.toNat heq
    rw [toNat_ofNat_valid _ (by omega), hdq] at this
    omega
  · simp only [Bool.and_eq_true, decide_eq_true_eq] at h2
    have := congrArg Char.toNat heq
    rw [toNat_ofNat_valid _ (by omega), hdq] at this
    omega
  · exact absurd heq (by decide)
  · have hc := congrArg Char.toNat heq
    rw [hdq] at hc
    rcases h with h | h
    · simp only [allowedChar, Bool.or_eq_true, Bool.and_eq_true,
        decide_eq_true_eq] at h
      omega
    · subst h
      simp at hc

/-- No sanitized term value contains a double quote: `TERM_CLEAN_RE` removes
it, and lowercasing cannot produce one. -/
theorem sanitize_term_no_dq (raw : List Char) :
    (sanitize_term raw).all (fun c => !(c = dq)) = true := by
  rw [List.all_eq_true]
  intro c hc
  simp only [Bool.not_eq_eq_eq_not, Bool.not_true, decide_eq_false_iff_not]
  unfold sanitize_term at hc
  rw [List.mem_map] at hc
  obtain ⟨c0, hc0, hceq⟩ := hc
  subst hceq
  exact pyLower_ne_dq c0 (cleanRunsGo_mem _ false (pyStrip_mem hc0))

/-- Lift a value predicate to mixed node/marker items. -/
def itemOk (P : List Char → Bool) : NItem → Bool
  | NItem.nd n => valuesOk P n
  | _ => true

theorem valuesOkList_eq_all (P : List Char → Bool) (l : List Node) :
    valuesOkList P l = l.all (valuesOk P) := by
  induction l with
  | nil => simp [valuesOkList]
  | cons n rest ih => simp [valuesOkList, ih]

theorem build_term_valuesOk (P : List Char → Bool)
    (hPs : ∀ r, P (sanitize_term r) = true) (tok : List Char) :
    valuesOk P (build_term tok) = true := by
  unfold build_term
  by_cases h : isPhraseTok tok <;> simp [h, valuesOk, hPs]

theorem consume_not_ok (P : List Char → Bool)
    (hPs : ∀ r, P (sanitize_term r) = true) :
    ∀ toks, (consume_not toks).all (itemOk P) = true := by
  intro toks
  have e1 : ¬(ANDtok = NOTtok) := by decide
  have e2 : ¬(ORtok = NOTtok) := by decide
  have e3 : ¬(ORtok = ANDtok) := by decide
  induction toks using consume_not.induct with
  | case1 => simp [consume_not]
  | case2 t rest2 ih =>
    unfold consume_not
    simp [itemOk, valuesOk, build_term_valuesOk P hPs, ih]
  | case3 => simp [consume_not]
  | case4 rest hne ih =>
    unfold consume_not
    simp [e1, itemOk, ih]
  | case5 rest hn1 hn2 ih =>
    unfold consume_not
    simp [e2, e3, itemOk, ih]
  | case6 tok rest hn1 hn2 hn3 ih =>
    unfold consume_not
    simp [hn1, hn2, hn3, itemOk, build_term_valuesOk P hPs, ih]

theorem all_filter_of_all {p f : Node → Bool} {l : List Node}
    (h : l.all p = true) : (l.filter f).all p = true := by
  rw [List.all_eq_true] at h ⊢
  intro a ha
  exact h a (List.mem_of_mem_filter ha)

theorem andFlush_ok (P : List Char → Bool) (hP0 : P [] = true)
    (current : List Node) (h : current.all (valuesOk P) = true) :
    (andFlush current).all (itemOk P) = true := by
  match current with
  | [] => simp [andFlush]
  | [x] =>
    simp at h
    simp [andFlush, itemOk, h]
  | x :: y :: rest =>
    rw [show andFlush (x :: y :: rest) =
        (match (x :: y :: rest).filter (fun c => !isEmptyTerm c) with
         | [] => [NItem.nd (Node.Term [] false)]
         | ne => [NItem.nd (Node.AndNode ne)]) from rfl]
    cases hf : (x :: y :: rest).filter (fun c => !isEmptyTerm c) with
    | nil => simp [itemOk, valuesOk, hP0]
    | cons z zs =>
      simp only [List.all_cons, List.all_nil, Bool.and_true]
      rw [show itemOk P (NItem.nd (Node.AndNode (z :: zs))) =
          valuesOkList P (z :: zs) from rfl, valuesOkList_eq_all, ← hf]
      exact all_filter_of_all h

theorem consumeAndGo_ok (P : List Char → Bool) (hP0 : P [] = true) :
    ∀ (seq : List NItem) (current : List Node),
      seq.all (itemOk P) = true → current.all (valuesOk P) = true →
      (consumeAndGo seq current).all (itemOk P) = true := by
  intro seq
  induction seq with
  | nil =>
    intro current _ hc
    exact andFlush_ok P hP0 current hc
  | cons it rest ih =>
    intro current hs hc
    rw [List.all_cons] at hs
    obtain ⟨hit, hrest⟩ := Bool.and_eq_true_iff.mp hs
    match it with
    | NItem.andTok => exact ih current hrest hc
    | NItem.orTok =>
      rw [show consumeAndGo (NItem.orTok :: rest) current =
          andFlush current ++ NItem.orTok :: consumeAndGo rest [] from rfl]
      rw [List.all_append, andFlush_ok P hP0 current hc, List.all_cons]
      rw [show itemOk P NItem.orTok = true from rfl]
      rw [ih [] hrest rfl]
      rfl
    | NItem.nd n =>
      apply ih (current ++ [n]) hrest
      rw [List.all_append, hc]
      rw [show itemOk P (NItem.nd n) = valuesOk P n from rfl] at hit
      simp [hit]

theorem orFlush_ok (P : List Char → Bool) (hP0 : P [] = true)
    (current : List Node) (h : current.all (valuesOk P) = true) :
    valuesOk P (orFlush current) = true := by
  match current with
  | [] => simp [orFlush, valuesOk, hP0]
  | [x] =>
    simp at h
    simp [orFlush, h]
  | x :: y :: rest =>
    rw [show orFlush (x :: y :: rest) = Node.AndNode (x :: y :: rest) from rfl]
    rw [show valuesOk P (Node.AndNode (x :: y :: rest)) =
        valuesOkList P (x :: y :: rest) from rfl, valuesOkList_eq_all]
    exact h

theorem orGroupsGo_ok (P : List Char → Bool) (hP0 : P [] = true) :
    ∀ (seq : List NItem) (current : List Node),
      seq.all (itemOk P) = true → current.all (valuesOk P) = true →
      (orGroupsGo seq current).all (valuesOk P) = true := by
  intro seq
  induction seq with
  | nil =>
    intro current _ hc
    simp [orGroupsGo, orFlush_ok P hP0 current hc]
  | cons it rest ih =>
    intro current hs hc
    rw [List.all_cons] at hs
    obtain ⟨hit, hrest⟩ := Bool.and_eq_true_iff.mp hs
    match it with
    | NItem.orTok =>
      rw [show orGroupsGo (NItem.orTok :: rest) current =
          orFlush current :: orGroupsGo rest [] from rfl]
      rw [List.all_cons, orFlush_ok P hP0 current hc, ih [] hrest rfl]
      rfl
    | NItem.andTok => exact ih current hrest hc
    | NItem.nd n =>
      apply ih (current ++ [n]) hrest
      rw [List.all_append, hc]
      rw [show itemOk P (NItem.nd n) = valuesOk P n from rfl] at hit
      simp [hit]

theorem consume_or_ok (P : List Char → Bool) (hP0 : P [] = true)
    (seq : List NItem) (h : seq.all (itemOk P) = true) :
    valuesOk P (consume_or seq) = true := by
  unfold consume_or
  have hg := orGroupsGo_ok P hP0 seq [] h rfl
  match hgs : orGroupsGo seq [] with
  | [] => simp [valuesOk, valuesOkList_eq_all]
  | [g] =>
    rw [hgs] at hg
    simpa using hg
  | g1 :: g2 :: gs =>
    rw [hgs] at hg
    simp [valuesOk, valuesOkList_eq_all]
    simpa using hg

mutual
theorem prune_valuesOk (P : List Char → Bool) :
    ∀ (n m : Node), prune n = some m → valuesOk P n = true →
      valuesOk P m = true := by
  intro n m h hv
  match n with
  | Node.Term v p =>
    unfold prune at h
    by_cases he : v.isEmpty <;> simp [he] at h
    subst h
    exact hv
  | Node.NotNode n0 =>
    unfold prune at h
    match hp : prune n0 with
    | some inner =>
      rw [hp] at h
      simp at h
      subst h
      rw [show valuesOk P n0.NotNode = valuesOk P n0 from rfl] at hv
      rw [show valuesOk P inner.NotNode = valuesOk P inner from rfl]
      exact prune_valuesOk P n0 inner hp hv
    | none => rw [hp] at h; simp at h
  | Node.AndNode ns =>
    unfold prune at h
    rw [show valuesOk P (Node.AndNode ns) = valuesOkList P ns from rfl] at hv
    have hl2 := pruneList_valuesOk P ns hv
    match hl : pruneList ns with
    | [] => rw [hl] at h; simp at h
    | [x] =>
      rw [hl] at h
      simp at h
      subst h
      rw [hl] at hl2
      simpa [valuesOkList] using hl2
    | x :: y :: xs =>
      rw [hl] at h
      simp at h
      subst h
      rw [hl] at hl2
      rw [show valuesOk P (Node.AndNode (x :: y :: xs)) =
          valuesOkList P (x :: y :: xs) from rfl]
      exact hl2
  | Node.OrNode ns =>
    unfold prune at h
    rw [show valuesOk P (Node.OrNode ns) = valuesOkList P ns from rfl] at hv
    have hl2 := pruneList_valuesOk P ns hv
    match hl : pruneList ns with
    | [] => rw [hl] at h; simp at h
    | [x] =>
      rw [hl] at h
      simp at h
      subst h
      rw [hl] at hl2
      simpa [valuesOkList] using hl2
    | x :: y :: xs =>
      rw [hl] at h
      simp at h
      subst h
      rw [hl] at hl2
      rw [show valuesOk P (Node.OrNode (x :: y :: xs)) =
          valuesOkList P (x :: y :: xs) from rfl]
      exact hl2

theorem pruneList_valuesOk (P : List Char → Bool) :
    ∀ (ns : List Node), valuesOkList P ns = true →
      valuesOkList P (pruneList ns) = true := by
  intro ns h
  match ns with
  | [] => simpa [pruneList] using h
  | n :: rest =>
    rw [show valuesOkList P (n :: rest) =
        (valuesOk P n && valuesOkList P rest) from rfl] at h
    obtain ⟨h1, h2⟩ := Bool.and_eq_true_iff.mp h
    unfold pruneList
    match hp : prune n with
    | some p =>
      rw [show valuesOkList P (p :: pruneList rest) =
          (valuesOk P p && valuesOkList P (pruneList rest)) from rfl]
      rw [prune_valuesOk P n p hp h1, pruneList_valuesOk P rest h2]
      rfl
    | none => exact pruneList_valuesOk P rest h2
end

/-- Every `Term` value in an AST returned by `parse_user_query` satisfies any
predicate that holds for the empty value and for every `sanitize_term`
output: all leaf values arise from `sanitize_term` or are the placeholder
empty value introduced during grouping. -/
theorem parse_valuesOk (P : List Char → Bool) (hP0 : P [] = true)
    (hPs : ∀ r, P (sanitize_term r) = true) (raw : List Char) (ast : Node)
    (h : parse_user_query raw = some ast) : valuesOk P ast = true := by
  unfold parse_user_query at h
  by_cases he : (pyStrip raw).isEmpty
  · simp [he] at h
  · simp [he] at h
    apply prune_valuesOk P _ _ h
    apply consume_or_ok P hP0
    unfold consume_and
    apply consumeAndGo_ok P hP0 _ [] _ rfl
    exact consume_not_ok P hPs _

theorem count_eq_zero_of_all_ne {v : List Char} {x : Char}
    (h : v.all (fun c => !(c = x)) = true) : v.count x = 0 := by
  rw [List.count_eq_zero]
  intro hmem
  rw [List.all_eq_true] at h
  have := h x hmem
  simp at this

mutual
theorem build_fts_query_dq_count (n : Node)
    (h : valuesOk (fun v => v.all (fun c => !(c = dq))) n = true) :
    (build_fts_query n).count dq = 2 * phraseCount n := by
  match n with
  | Node.Term v p =>
    rw [show valuesOk (fun v => v.all (fun c => !(c = dq))) (Node.Term v p) =
        v.all (fun c => !(c = dq)) from rfl] at h
    have hz := count_eq_zero_of_all_ne h
    cases p <;>
      simp [build_fts_query, phraseCount, List.count_append, hz]
  | Node.NotNode m =>
    have ih := build_fts_query_dq_count m h
    rw [show build_fts_query (Node.NotNode m) =
        "NOT (".toList ++ build_fts_query m ++ [')'] from rfl]
    simp only [List.count_append]
    rw [ih]
    rw [show phraseCount (Node.NotNode m) = phraseCount m from rfl]
    have h1 : ("NOT (".toList).count dq = 0 := by decide
    have h2 : ([')'] : List Char).count dq = 0 := by decide
    omega
  | Node.AndNode ns =>
    have ih := ftsRenderList_dq_count ns h
    rw [show build_fts_query (Node.AndNode ns) =
        joinWith [' '] (ftsRenderList ns) from rfl]
    rw [count_joinWith dq [' '] (by decide), ih]
    rfl
  | Node.OrNode ns =>
    have ih := ftsRenderList_dq_count ns h
    rw [show build_fts_query (Node.OrNode ns) =
        joinWith " OR ".toList (ftsRenderList ns) from rfl]
    rw [count_joinWith dq (" OR ".toList) (by decide), ih]
    rfl

theorem ftsRenderList_dq_count (ns : List Node)
    (h : valuesOkList (fun v => v.all (fun c => !(c = dq))) ns = true) :
    ((ftsRenderList ns).map (fun x => x.count dq)).sum =
      2 * phraseCountList ns := by
  match ns with
  | [] => simp [ftsRenderList, phraseCountList]
  | n :: rest =>
    rw [show valuesOkList (fun v => v.all (fun c => !(c = dq))) (n :: rest) =
        (valuesOk (fun v => v.all (fun c => !(c = dq))) n &&
          valuesOkList (fun v => v.all (fun c => !(c = dq))) rest) from rfl] at h
    obtain ⟨h1, h2⟩ := Bool.and_eq_true_iff.mp h
    rw [show ftsRenderList (n :: rest) =
        build_fts_query n :: ftsRenderList rest from rfl]
    simp only [List.map_cons, List.sum_cons]
    rw [build_fts_query_dq_count n h1, ftsRenderList_dq_count rest h2]
    rw [show phraseCountList (n :: rest) =
        phraseCount n + phraseCountList rest from rfl]
    omega
end

/-- Claim C10: no `Term` value in an AST returned by `parse_user_query`
contains a double quote (sanitization removes it), so `build_fts_query`
emits exactly one balanced pair of quotes per phrase leaf — `2 * phraseCount`
quote characters in total — and user input cannot inject an unbalanced or
extra quote into the rendered index query. -/
theorem parse_fts_balanced_quotes (raw : List Char) (ast : Node)
    (h : parse_user_query raw = some ast) :
    valuesOk (fun v => v.all (fun c => !(c = dq))) ast = true ∧
    (build_fts_query ast).count dq = 2 * phraseCount ast := by
  have hv := parse_valuesOk (fun v => v.all (fun c => !(c = dq))) (by rfl)
    sanitize_term_no_dq raw ast h
  exact ⟨hv, build_fts_query_dq_count ast hv⟩

/-- Witness for C10 at the concrete phrase query `"old case"` (in quotes). -/
theorem parse_fts_balanced_quotes_witness :
    valuesOk (fun v => v.all (fun c => !(c = dq)))
      (Node.Term ['o', 'l', 'd', ' ', 'c', 'a', 's', 'e'] true) = true ∧
    (build_fts_query
      (Node.Term ['o', 'l', 'd', ' ', 'c', 'a', 's', 'e'] true)).count dq =
      2 * phraseCount (Node.Term ['o', 'l', 'd', ' ', 'c', 'a', 's', 'e'] true) :=
  parse_fts_balanced_quotes (dq :: ("old case".toList ++ [dq])) _ (by rfl)

theorem plainAndOrList_cons {n : Node} {rest : List Node}
    (h : plainAndOrList (n :: rest) = true) :
    plainAndOr n = true ∧ plainAndOrList rest = true := by
  rw [show plainAndOrList (n :: rest) =
      (plainAndOr n && plainAndOrList rest) from rfl] at h
  exact Bool.and_eq_true_iff.mp h

theorem termValuesList_cons (n : Node) (rest : List Node) :
    termValuesList (n :: rest) = termValues n ++ termValuesList rest := rfl

mutual
theorem ftsEval_eq_likeEval (n : Node) (d : Doc) (hp : plainAndOr n = true)
    (ha : ∀ v ∈ termValues n, ftsTermMatch v d = likeTermMatch v d) :
    ftsEval n d = likeEval n d := by
  match n with
  | Node.Term v p =>
    rw [show ftsEval (Node.Term v p) d = ftsTermMatch v d from rfl,
      show likeEval (Node.Term v p) d = likeTermMatch v d from rfl]
    exact ha v (by rw [show termValues (Node.Term v p) = [v] from rfl]; simp)
  | Node.NotNode m =>
    rw [show plainAndOr (Node.NotNode m) = false from rfl] at hp
    simp at hp
  | Node.AndNode ns =>
    rw [show plainAndOr (Node.AndNode ns) = plainAndOrList ns from rfl] at hp
    rw [show termValues (Node.AndNode ns) = termValuesList ns from rfl] at ha
    rw [show ftsEval (Node.AndNode ns) d = ftsEvalList ns d from rfl,
      show likeEval (Node.AndNode ns) d = likeEvalList ns d from rfl]
    exact ftsEvalList_eq ns d hp ha
  | Node.OrNode ns =>
    rw [show plainAndOr (Node.OrNode ns) = plainAndOrList ns from rfl] at hp
    rw [show termValues (Node.OrNode ns) = termValuesList ns from rfl] at ha
    rw [show ftsEval (Node.OrNode ns) d = ftsEvalAny ns d from rfl,
      show likeEval (Node.OrNode ns) d = likeEvalAny ns d from rfl]
    exact ftsEvalAny_eq ns d hp ha

theorem ftsEvalList_eq (ns : List Node) (d : Doc)
    (hp : plainAndOrList ns = true)
    (ha : ∀ v ∈ termValuesList ns, ftsTermMatch v d = likeTermMatch v d) :
    ftsEvalList ns d = likeEvalList ns d := by
  match ns with
  | [] => rfl
  | n :: rest =>
    obtain ⟨h1, h2⟩ := plainAndOrList_cons hp
    rw [termValuesList_cons] at ha
    rw [show ftsEvalList (n :: rest) d =
        (ftsEval n d && ftsEvalList rest d) from rfl,
      show likeEvalList (n :: rest) d =
        (likeEval n d && likeEvalList rest d) from rfl]
    rw [ftsEval_eq_likeEval n d h1 (fun v hv => ha v (List.mem_append_left _ hv)),
      ftsEvalList_eq rest d h2 (fun v hv => ha v (List.mem_append_right _ hv))]

theorem ftsEvalAny_eq (ns : List Node) (d : Doc)
    (hp : plainAndOrList ns = true)
    (ha : ∀ v ∈ termValuesList ns, ftsTermMatch v d = likeTermMatch v d) :
    ftsEvalAny ns d = likeEvalAny ns d := by
  match ns with
  | [] => rfl
  | n :: rest =>
    obtain ⟨h1, h2⟩ := plainAndOrList_cons hp
    rw [termValuesList_cons] at ha
    rw [show ftsEvalAny (n :: rest) d =
        (ftsEval n d || ftsEvalAny rest d) from rfl,
      show likeEvalAny (n :: rest) d =
        (likeEval n d || likeEvalAny rest d) from rfl]
    rw [ftsEval_eq_likeEval n d h1 (fun v hv => ha v (List.mem_append_left _ hv)),
      ftsEvalAny_eq rest d h2 (fun v hv => ha v (List.mem_append_right _ hv))]
end

/-- Counterexample to claim C2 as stated: for the plain-term AST of the query
`"cat"` (which `parse_user_query` indeed produces) and a one-document dataset
whose title is `"concatenation"`, the index backend's token matching selects
no document while the substring backend's `LIKE '%cat%'` selects the
document, so the two result sets differ. -/
theorem renderer_agreement_counterexample :
    parse_user_query ['c', 'a', 't'] = some (Node.Term ['c', 'a', 't'] false) ∧
    plainAndOr (Node.Term ['c', 'a', 't'] false) = true ∧
    List.filter (ftsEval (Node.Term ['c', 'a', 't'] false))
      [Doc.mk "concatenation".toList []] = [] ∧
    List.filter (likeEval (Node.Term ['c', 'a', 't'] false))
      [Doc.mk "concatenation".toList []] = [Doc.mk "concatenation".toList []] ∧
    ([] : List Doc) ≠ [Doc.mk "concatenation".toList []] := by
  refine ⟨by rfl, by rfl, by rfl, by rfl, by simp⟩

/-- Amended C2: the two renderers denote the same Boolean combination, so for
every pruned AST of non-phrase terms combined with `AndNode`/`OrNode` the two
backends select the same documents from any dataset on which their atomic
per-term predicates agree (token containment for the index backend versus
substring containment for the fallback — the counterexample shows these
atomic predicates themselves can differ). -/
theorem renderer_agreement_amended (ast : Node) (docs : List Doc)
    (hplain : plainAndOr ast = true)
    (hatom : ∀ v ∈ termValues ast, ∀ d ∈ docs,
      ftsTermMatch v d = likeTermMatch v d) :
    docs.filter (ftsEval ast) = docs.filter (likeEval ast) := by
  induction docs with
  | nil => rfl
  | cons d rest ih =>
    have hd := ftsEval_eq_likeEval ast d hplain
      (fun v hv => hatom v hv d (List.mem_cons_self d rest))
    have hrest := ih (fun v hv d2 hd2 => hatom v hv d2 (List.mem_cons_of_mem d hd2))
    simp only [List.filter_cons]
    rw [hd, hrest]

/-- Witness for the amended C2 at the AST of `"cat dog"` over a one-document
dataset where token matching and substring matching agree on both terms. -/
theorem renderer_agreement_amended_witness :
    List.filter
      (ftsEval (Node.AndNode
        [Node.Term ['c', 'a', 't'] false, Node.Term ['d', 'o', 'g'] false]))
      [Doc.mk "cat dog".toList []] =
    List.filter
      (likeEval (Node.AndNode
        [Node.Term ['c', 'a', 't'] false, Node.Term ['d', 'o', 'g'] false]))
      [Doc.mk "cat dog".toList []] :=
  renderer_agreement_amended _ _ (by rfl) (by decide)

/-- Is an item a flat leaf (or a marker)? -/
def itemFlatLeaf : NItem → Bool
  | NItem.nd n => flatLeaf n
  | _ => true

/-- Is an item a flat group (or a marker)? -/
def itemFlatAnd : NItem → Bool
  | NItem.nd n => flatAnd n
  | _ => true

/-- The item is not an `AND` marker. -/
def notAndTok : NItem → Bool
  | NItem.andTok => false
  | _ => true

/-- No two adjacent node items (so every OR-delimited group of the sequence
holds at most one node). -/
def noTwoNd : List NItem → Bool
  | NItem.nd _ :: NItem.nd _ :: _ => false
  | _ :: rest => noTwoNd rest
  | [] => true

/-- The sequence does not start with a node item. -/
def headNotNd : List NItem → Bool
  | NItem.nd _ :: _ => false
  | _ => true

theorem flatLeaf_flatAnd {n : Node} (h : flatLeaf n = true) : flatAnd n = true := by
  match n with
  | Node.Term v p => rfl
  | Node.NotNode m =>
    match m with
    | Node.Term _ _ => rfl
    | Node.NotNode _ => simp [flatLeaf] at h
    | Node.AndNode _ => simp [flatLeaf] at h
    | Node.OrNode _ => simp [flatLeaf] at h
  | Node.AndNode ns => simp [flatLeaf] at h
  | Node.OrNode ns => simp [flatLeaf] at h

theorem flatAnd_flatRoot {n : Node} (h : flatAnd n = true) : flatRoot n = true := by
  match n with
  | Node.Term v p => rfl
  | Node.NotNode m => exact h
  | Node.AndNode ns => exact h
  | Node.OrNode ns => simp [flatAnd, flatLeaf] at h

theorem build_term_flatLeaf (tok : List Char) : flatLeaf (build_term tok) = true := by
  unfold build_term
  by_cases h : isPhraseTok tok <;> simp [h, flatLeaf]

theorem consume_not_flatLeaf :
    ∀ toks, (consume_not toks).all itemFlatLeaf = true := by
  intro toks
  have e1 : ¬(ANDtok = NOTtok) := by decide
  have e2 : ¬(ORtok = NOTtok) := by decide
  have e3 : ¬(ORtok = ANDtok) := by decide
  induction toks using consume_not.induct with
  | case1 => simp [consume_not]
  | case2 t rest2 ih =>
    unfold consume_not
    have hb : flatLeaf (Node.NotNode (build_term t)) = true := by
      unfold build_term
      by_cases h : isPhraseTok t <;> simp [h, flatLeaf]
    simp [itemFlatLeaf, hb, ih]
  | case3 => simp [consume_not]
  | case4 rest hne ih =>
    unfold consume_not
    simp [e1, itemFlatLeaf, ih]
  | case5 rest hn1 hn2 ih =>
    unfold consume_not
    simp [e2, e3, itemFlatLeaf, ih]
  | case6 tok rest hn1 hn2 hn3 ih =>
    unfold consume_not
    simp [hn1, hn2, hn3, itemFlatLeaf, build_term_flatLeaf, ih]

theorem andFlush_shape (current : List Node)
    (h : current.all flatLeaf = true) :
    andFlush current = [] ∨
      ∃ x, andFlush current = [NItem.nd x] ∧ flatAnd x = true := by
  match current with
  | [] => exact Or.inl rfl
  | [x] =>
    simp at h
    exact Or.inr ⟨x, rfl, flatLeaf_flatAnd h⟩
  | x :: y :: rest =>
    rw [show andFlush (x :: y :: rest) =
        (match (x :: y :: rest).filter (fun c => !isEmptyTerm c) with
         | [] => [NItem.nd (Node.Term [] false)]
         | ne => [NItem.nd (Node.AndNode ne)]) from rfl]
    cases hf : (x :: y :: rest).filter (fun c => !isEmptyTerm c) with
    | nil => exact Or.inr ⟨Node.Term [] false, rfl, rfl⟩
    | cons z zs =>
      refine Or.inr ⟨Node.AndNode (z :: zs), rfl, ?_⟩
      rw [show flatAnd (Node.AndNode (z :: zs)) = (z :: zs).all flatLeaf from rfl]
      rw [← hf]
      exact all_filter_of_all h

theorem noTwoNd_nd_cons {x : Node} {rest : List NItem}
    (h : noTwoNd (NItem.nd x :: rest) = true) :
    noTwoNd rest = true ∧ headNotNd rest = true := by
  match rest with
  | [] => exact ⟨rfl, rfl⟩
  | NItem.nd y :: tl => exact absurd h (by simp [noTwoNd])
  | NItem.andTok :: tl => exact ⟨h, rfl⟩
  | NItem.orTok :: tl => exact ⟨h, rfl⟩

theorem consumeAndGo_shape :
    ∀ (seq : List NItem) (current : List Node),
      seq.all itemFlatLeaf = true → current.all flatLeaf = true →
      (consumeAndGo seq current).all itemFlatAnd = true ∧
      (consumeAndGo seq current).all notAndTok = true ∧
      noTwoNd (consumeAndGo seq current) = true := by
  intro seq
  induction seq with
  | nil =>
    intro current _ hc
    rcases andFlush_shape current hc with haf | ⟨x, haf, hx⟩
    · rw [show consumeAndGo [] current = andFlush current from rfl, haf]
      exact ⟨rfl, rfl, rfl⟩
    · rw [show consumeAndGo [] current = andFlush current from rfl, haf]
      refine ⟨?_, rfl, rfl⟩
      simp [itemFlatAnd, hx]
  | cons it rest ih =>
    intro current hs hc
    rw [List.all_cons] at hs
    obtain ⟨hit, hrest⟩ := Bool.and_eq_true_iff.mp hs
    match it with
    | NItem.andTok => exact ih current hrest hc
    | NItem.orTok =>
      obtain ⟨ih1, ih2, ih3⟩ := ih [] hrest rfl
      rcases andFlush_shape current hc with haf | ⟨x, haf, hx⟩
      · rw [show consumeAndGo (NItem.orTok :: rest) current =
            andFlush current ++ NItem.orTok :: consumeAndGo rest [] from rfl, haf]
        rw [List.nil_append]
        refine ⟨?_, ?_, ?_⟩
        · simp [itemFlatAnd, ih1]
        · simp [notAndTok, ih2]
        · exact ih3
      · rw [show consumeAndGo (NItem.orTok :: rest) current =
            andFlush current ++ NItem.orTok :: consumeAndGo rest [] from rfl, haf]
        refine ⟨?_, ?_, ?_⟩
        · simp [itemFlatAnd, hx, ih1]
        · simp [notAndTok, ih2]
        · exact ih3
    | NItem.nd n =>
      rw [show consumeAndGo (NItem.nd n :: rest) current =
          consumeAndGo rest (current ++ [n]) from rfl]
      apply ih (current ++ [n]) hrest
      rw [List.all_append, hc]
      rw [show itemFlatLeaf (NItem.nd n) = flatLeaf n from rfl] at hit
      simp [hit]

theorem orGroupsGo_flat :
    ∀ (seq : List NItem) (current : List Node),
      seq.all itemFlatAnd = true → seq.all notAndTok = true →
      noTwoNd seq = true →
      (current = [] ∨ ∃ x, current = [x] ∧ flatAnd x = true) →
      (current ≠ [] → headNotNd seq = true) →
      (orGroupsGo seq current).all flatAnd = true := by
  intro seq
  induction seq with
  | nil =>
    intro current _ _ _ hcur _
    rcases hcur with hc | ⟨x, hc, hx⟩
    · subst hc
      rfl
    · subst hc
      rw [show orGroupsGo [] [x] = [orFlush [x]] from rfl,
        show orFlush [x] = x from rfl]
      simp [hx]
  | cons it rest ih =>
    intro current h1 h2 h3 hcur hhead
    rw [List.all_cons] at h1 h2
    obtain ⟨h1a, h1b⟩ := Bool.and_eq_true_iff.mp h1
    obtain ⟨h2a, h2b⟩ := Bool.and_eq_true_iff.mp h2
    match it with
    | NItem.andTok => simp [notAndTok] at h2a
    | NItem.orTok =>
      rw [show orGroupsGo (NItem.orTok :: rest) current =
          orFlush current :: orGroupsGo rest [] from rfl]
      rw [List.all_cons]
      have hfl : flatAnd (orFlush current) = true := by
        rcases hcur with hc | ⟨x, hc, hx⟩
        · subst hc; rfl
        · subst hc
          rw [show orFlush [x] = x from rfl]
          exact hx
      rw [hfl]
      have := ih [] h1b h2b h3 (Or.inl rfl) (fun hc => absurd rfl hc)
      simp [this]
    | NItem.nd n =>
      have hcure : current = [] := by
        rcases hcur with hc | ⟨x, hc, hx⟩
        · exact hc
        · subst hc
          have := hhead (by simp)
          simp [headNotNd] at this
      subst hcure
      rw [show orGroupsGo (NItem.nd n :: rest) [] =
          orGroupsGo rest [n] from rfl]
      obtain ⟨hr1, hr2⟩ := noTwoNd_nd_cons h3
      apply ih [n] h1b h2b hr1
      · rw [show itemFlatAnd (NItem.nd n) = flatAnd n from rfl] at h1a
        exact Or.inr ⟨n, rfl, h1a⟩
      · intro _
        exact hr2

theorem consume_or_flat (seq : List NItem)
    (h1 : seq.all itemFlatAnd = true) (h2 : seq.all notAndTok = true)
    (h3 : noTwoNd seq = true) : flatRoot (consume_or seq) = true := by
  unfold consume_or
  have hg := orGroupsGo_flat seq [] h1 h2 h3 (Or.inl rfl) (fun hc => absurd rfl hc)
  match hgs : orGroupsGo seq [] with
  | [] => rfl
  | [g] =>
    rw [hgs] at hg
    simp at hg
    exact flatAnd_flatRoot hg
  | g1 :: g2 :: gs =>
    rw [hgs] at hg
    rw [show flatRoot (Node.OrNode (g1 :: g2 :: gs)) =
        (g1 :: g2 :: gs).all flatAnd from rfl]
    exact hg

theorem prune_flatLeaf {n m : Node} (hf : flatLeaf n = true)
    (h : prune n = some m) : flatLeaf m = true := by
  match n with
  | Node.Term v p =>
    unfold prune at h
    by_cases hv : v.isEmpty <;> simp [hv] at h
    subst h
    rfl
  | Node.NotNode m0 =>
    match m0 with
    | Node.Term v p =>
      unfold prune at h
      by_cases hv : v.isEmpty <;> simp [prune, hv] at h
      subst h
      rfl
    | Node.NotNode _ => simp [flatLeaf] at hf
    | Node.AndNode _ => simp [flatLeaf] at hf
    | Node.OrNode _ => simp [flatLeaf] at hf
  | Node.AndNode _ => simp [flatLeaf] at hf
  | Node.OrNode _ => simp [flatLeaf] at hf

theorem pruneList_all_flatLeaf :
    ∀ ns : List Node, ns.all flatLeaf = true →
      (pruneList ns).all flatLeaf = true := by
  intro ns
  induction ns with
  | nil => intro _; rfl
  | cons n rest ih =>
    intro h
    rw [List.all_cons] at h
    obtain ⟨h1, h2⟩ := Bool.and_eq_true_iff.mp h
    unfold pruneList
    match hp : prune n with
    | some p => simp [prune_flatLeaf h1 hp, ih h2]
    | none => exact ih h2

theorem prune_flatAnd {n m : Node} (hf : flatAnd n = true)
    (h : prune n = some m) : flatAnd m = true := by
  match n with
  | Node.Term v p =>
    unfold prune at h
    by_cases hv : v.isEmpty <;> simp [hv] at h
    subst h
    rfl
  | Node.NotNode m0 =>
    exact flatLeaf_flatAnd (prune_flatLeaf hf h)
  | Node.AndNode ns =>
    rw [show flatAnd (Node.AndNode ns) = ns.all flatLeaf from rfl] at hf
    have hl2 := pruneList_all_flatLeaf ns hf
    unfold prune at h
    match hl : pruneList ns with
    | [] => rw [hl] at h; simp at h
    | [x] =>
      rw [hl] at h
      simp at h
      subst h
      rw [hl] at hl2
      simp at hl2
      exact flatLeaf_flatAnd hl2
    | x :: y :: xs =>
      rw [hl] at h
      simp at h
      subst h
      rw [hl] at hl2
      rw [show flatAnd (Node.AndNode (x :: y :: xs)) =
          (x :: y :: xs).all flatLeaf from rfl]
      exact hl2
  | Node.OrNode ns => simp [flatAnd, flatLeaf] at hf

theorem pruneList_all_flatAnd :
    ∀ ns : List Node, ns.all flatAnd = true →
      (pruneList ns).all flatAnd = true := by
  intro ns
  induction ns with
  | nil => intro _; rfl
  | cons n rest ih =>
    intro h
    rw [List.all_cons] at h
    obtain ⟨h1, h2⟩ := Bool.and_eq_true_iff.mp h
    unfold pruneList
    match hp : prune n with
    | some p => simp [prune_flatAnd h1 hp, ih h2]
    | none => exact ih h2

theorem prune_flatRoot {n m : Node} (hf : flatRoot n = true)
    (h : prune n = some m) : flatRoot m = true := by
  match n with
  | Node.Term v p =>
    exact flatAnd_flatRoot
      (prune_flatAnd (show flatAnd (Node.Term v p) = true from hf) h)
  | Node.NotNode m0 =>
    exact flatAnd_flatRoot
      (prune_flatAnd (show flatAnd (Node.NotNode m0) = true from hf) h)
  | Node.AndNode ns =>
    exact flatAnd_flatRoot
      (prune_flatAnd (show flatAnd (Node.AndNode ns) = true from hf) h)
  | Node.OrNode ns =>
    rw [show flatRoot (Node.OrNode ns) = ns.all flatAnd from rfl] at hf
    have hl2 := pruneList_all_flatAnd ns hf
    unfold prune at h
    match hl : pruneList ns with
    | [] => rw [hl] at h; simp at h
    | [x] =>
      rw [hl] at h
      simp at h
      subst h
      rw [hl] at hl2
      simp at hl2
      exact flatAnd_flatRoot hl2
    | x :: y :: xs =>
      rw [hl] at h
      simp at h
      subst h
      rw [hl] at hl2
      rw [show flatRoot (Node.OrNode (x :: y :: xs)) =
          (x :: y :: xs).all flatAnd from rfl]
      exact hl2

/-- Claim C9: every AST returned by `parse_user_query` is flat: the child of
every `NotNode` is a `Term`, every child of an `AndNode` is a `Term` or a
`NotNode` over a `Term`, and an `OrNode` can only occur as the root
(`flatRoot` states exactly this shape). -/
theorem parse_user_query_flat (raw : List Char) (ast : Node)
    (h : parse_user_query raw = some ast) : flatRoot ast = true := by
  unfold parse_user_query at h
  by_cases he : (pyStrip raw).isEmpty
  · simp [he] at h
  · simp [he] at h
    apply prune_flatRoot _ h
    obtain ⟨s1, s2, s3⟩ := consumeAndGo_shape
      (consume_not (collapseGo (insertAndsGo
        ((tokenize (pyStrip raw)).map expandTok).flatten false) false)) []
      (consume_not_flatLeaf _) rfl
    exact consume_or_flat _ s1 s2 s3

/-- Witness for C9 at the concrete input `"a OR b c"`. -/
theorem parse_user_query_flat_witness :
    flatRoot (Node.OrNode
      [Node.Term ['a'] false,
       Node.AndNode [Node.Term ['b'] false, Node.Term ['c'] false]]) = true :=
  parse_user_query_flat "a OR b c".toList _ (by rfl)
